import Mathlib

/-!
# Verification development for `pkg/kustomize/kustomize.go`

A shallow embedding of the four functions of the package (`Process`,
`modifyKustomize`, `toFilesystem`, `kustomize`) together with the parts of
their collaborators that the functions depend on:

* Go's `strings.HasPrefix`, `strings.TrimPrefix`, `filepath.Clean` and
  `filepath.Join` are written out (Unix separator);
* the in-memory file store is a finite map from rooted, normalised paths to
  contents;
* the content codec, the YAML reader, the JSON writer, the string-slice
  coercion, the store's admission rule and the overlay engine are fields of an
  environment `Env`, so every theorem holds for all of them.
-/

set_option autoImplicit false

namespace Kustomize

/-! ## Strings and paths -/

/-- Go `[]byte`; contents are never inspected, only measured and compared. -/
abbrev Bytes := String

/-- Go `error` values. -/
abbrev Error := String

/-- Go `strings.HasPrefix`. -/
def HasPrefix (s pre : String) : Bool :=
  pre.data.isPrefixOf s.data

/-- Go `strings.TrimPrefix`. -/
def TrimPrefix (s pre : String) : String :=
  if HasPrefix s pre then String.mk (s.data.drop pre.data.length) else s

/-- Splits a path at every separator `/` (empty elements are kept). -/
def splitSep : List Char → List (List Char)
  | [] => [[]]
  | c :: cs =>
    if c = '/' then [] :: splitSep cs
    else
      match splitSep cs with
      | [] => [[c]]
      | h :: t => (c :: h) :: t

/-- Joins path elements with the separator `/`. -/
def joinSep : List (List Char) → List Char
  | [] => []
  | [a] => a
  | a :: b :: t => a ++ '/' :: joinSep (b :: t)

/-- One element of the lexical processing of `filepath.Clean`; `stack` holds
the elements kept so far, innermost first. -/
def cleanStep (rooted : Bool) (stack : List (List Char)) (e : List Char) :
    List (List Char) :=
  if e = [] ∨ e = ['.'] then stack
  else if e = ['.', '.'] then
    match stack with
    | [] => if rooted then [] else [e]
    | top :: rest => if top = ['.', '.'] then e :: stack else rest
  else e :: stack

/-- The function `filepath.Clean` on character lists. -/
def cleanChars (path : List Char) : List Char :=
  let rooted : Bool := path.head? = some '/'
  let stack := (splitSep path).foldl (cleanStep rooted) []
  let out := (if rooted then ['/'] else []) ++ joinSep stack.reverse
  if out = [] then ['.'] else out

/-- Go `filepath.Clean`: the shortest path name equivalent to `path` by purely
lexical processing. -/
def Clean (path : String) : String :=
  String.mk (cleanChars path.data)

/-- Go `filepath.Join`: the elements from the first non-empty one on, joined
with `/` and cleaned; the empty string if all are empty. -/
def Join : List String → String
  | [] => ""
  | e :: es =>
    if e = "" then Join es
    else Clean (String.mk (joinSep ((e :: es).map String.data)))

def KustomizeYAML : String := "kustomization.yaml"

def ManifestsYAML : String := "manifests.yaml"

/-! ## Finite maps -/

/-- Lookup in an association list; the first binding of a key is in force. -/
def assocGet {α : Type} : List (String × α) → String → Option α
  | [], _ => none
  | (k', v) :: t, k => if k' = k then some v else assocGet t k

/-- Assignment in an association list: the binding of `k` is replaced where it
stands, or added at the end when `k` is unbound. -/
def assocSet {α : Type} : List (String × α) → String → α → List (String × α)
  | [], k, v => [(k, v)]
  | (k', v') :: t, k, v =>
    if k' = k then (k, v) :: t else (k', v') :: assocSet t k v

/-- Go `map[string]interface{}` with dynamic values of type `V`. -/
abbrev Doc (V : Type) := List (String × V)

/-- Go `data[key]`; `none` is the nil interface of an absent key. -/
def Doc.get {V : Type} (d : Doc V) (k : String) : Option V := assocGet d k

/-- Go `data[key] = v`. -/
def Doc.set {V : Type} (d : Doc V) (k : String) (v : V) : Doc V := assocSet d k v

/-! ## The in-memory file store -/

/-- Modelled from the spec: the in-memory file store of the external `filesys`
package, which is not part of the source file. Section 3 describes it as a
"hierarchical namespace mapping path → bytes" whose "paths are rooted and
normalized" and whose "existence queries must reflect exactly the set of paths
written"; section 9 as a "map from normalized path to byte buffer, with
explicit existence/read/write operations". Keys are rooted, cleaned paths. -/
abbrev Store := List (String × Bytes)

/-- Modelled from the spec: the store's "paths are rooted and normalized"
(section 3); a path is filed under its cleaned form below the root. -/
def storeKey (path : String) : String := Clean ("/" ++ path)

/-- Modelled from the spec: the store created by `filesys.MakeEmptyDirInMemory()`,
in which nothing has been written. -/
def MakeEmptyDirInMemory : Store := []

/-- Modelled from the spec: the query `FileSystem.Exists`; "existence queries
must reflect exactly the set of paths written" (section 3). -/
def Store.Exists (f : Store) (path : String) : Bool :=
  (assocGet f (storeKey path)).isSome

/-- Modelled from the spec: the query `FileSystem.ReadFile`, the bytes last
written at the path or an error when nothing was. -/
def Store.ReadFile (f : Store) (path : String) : Except Error Bytes :=
  match assocGet f (storeKey path) with
  | some b => .ok b
  | none => .error ("cannot find file to read it: " ++ path)

/-! ## Data supplied by the caller -/

/-- Modelled from the spec: one resource of a bundle (`fleet.BundleResource`),
the Resource Fragment `{name, content, encoding}` of section 3. -/
structure BundleResource where
  Name : String
  Content : String
  Encoding : String
  deriving DecidableEq, Repr

/-- Modelled from the spec: the bundle handed to `Process` (`manifest.Manifest`),
an ordered collection of Resource Fragments. -/
structure Manifest where
  Resources : List BundleResource
  deriving DecidableEq, Repr

/-- The wrapper `unstructured.Unstructured`. -/
structure Unstructured (M : Type) where
  Object : M

/-! ## External collaborators -/

/-- The collaborators of the package, none of which is part of the source file.
Every definition below takes them as given and every theorem holds for all of
them. -/
structure Env where
  /-- dynamic values of a decoded document (Go `interface{}`) -/
  Value : Type
  /-- a resource resolved by the overlay engine -/
  Resource : Type
  /-- the `map[string]interface{}` of a resolved resource -/
  ObjMap : Type
  /-- the call `content.Decode(content, encoding)` -/
  Decode : String → String → Except Error Bytes
  /-- the call `yaml.Unmarshal(bytes, &data)` on an empty map; `none` is an error -/
  Unmarshal : Bytes → Option (Doc Value)
  /-- the call `json.Marshal(data)` -/
  Marshal : Doc Value → Except Error Bytes
  /-- the call `convert.ToStringSlice(data[key])` -/
  ToStringSlice : Option Value → List String
  /-- a Go `[]string` stored as a dynamic value -/
  ofStrings : List String → Value
  /-- the store's verdict on adding a file: `some err` when it refuses -/
  createCheck : Store → String → Option Error
  /-- the store's verdict on writing a file back: `some err` when it refuses -/
  writeCheck : Store → String → Option Error
  /-- the call `krusty.MakeKustomizer(fs, opts).Run(dir)` followed by `Resources()` -/
  Run : Store → String → Except Error (List Resource)
  /-- the method `Resource.Map()` -/
  Map : Resource → ObjMap

/-- Modelled from the spec: the call `AddFile`. The store may reject the write
(section 7, StoreWriteError); otherwise the file is created, or overwritten
when it is there ("last write wins", section 3). -/
def AddFile (env : Env) (f : Store) (name : String) (c : Bytes) : Except Error Store :=
  match env.createCheck f name with
  | some err => .error err
  | none => .ok (assocSet f (storeKey name) c)

/-- Modelled from the spec: the call `FileSystem.WriteFile`. The store may reject
the write (section 7, DeclarationWriteError); otherwise the file is overwritten,
or created when it is not there. -/
def WriteFile (env : Env) (f : Store) (path : String) (d : Bytes) : Except Error Store :=
  match env.writeCheck f path with
  | some err => .error err
  | none => .ok (assocSet f (storeKey path) d)

/-- The helper `slice.ContainsString`. -/
def ContainsString (slice : List String) (item : String) : Bool :=
  slice.any fun s => decide (s = item)

/-! ## The package -/

/-- The result triple of `Process`, with one ghost component: `engineRuns`
lists the (store, directory) pairs at which the overlay engine was invoked. -/
structure Outcome (M : Type) where
  objs : List (Unstructured M)
  usedOverlay : Bool
  err : Option Error
  engineRuns : List (Store × String)

/-- The loop of `toFilesystem` over `m.Resources`, threading the store. -/
def addResources (env : Env) : List BundleResource → Store → Except Error Store
  | [], f => .ok f
  | resource :: rest, f =>
    if !HasPrefix resource.Name "kustomize/" then addResources env rest f
    else
      let name := TrimPrefix resource.Name "kustomize/"
      match env.Decode resource.Content resource.Encoding with
      | .error err => .error err
      | .ok data =>
        match AddFile env f name data with
        | .error err => .error err
        | .ok f' => addResources env rest f'

/-- The function `toFilesystem`. (On a failure of the last `AddFile` the source
returns the store next to the error; its only caller drops it.) -/
def toFilesystem (env : Env) (m : Manifest) (dir : String) (manifestsContent : Bytes) :
    Except Error Store :=
  match addResources env m.Resources MakeEmptyDirInMemory with
  | .error err => .error err
  | .ok f => AddFile env f (Join [dir, ManifestsYAML]) manifestsContent

/-- The function `modifyKustomize`: the returned error and the store as the call
leaves it. -/
def modifyKustomize (env : Env) (f : Store) (dir : String) : Option Error × Store :=
  let file := Join [dir, KustomizeYAML]
  match f.ReadFile file with
  | .error err => (some err, f)
  | .ok fileBytes =>
    match env.Unmarshal fileBytes with
    | none => (none, f)
    | some data =>
      let resources := env.ToStringSlice (data.get "resources")
      if ContainsString resources ManifestsYAML then (none, f)
      else
        let data := data.set "resources" (env.ofStrings (resources ++ [ManifestsYAML]))
        match env.Marshal data with
        | .error err => (some err, f)
        | .ok fileBytes =>
          match WriteFile env f file fileBytes with
          | .error err => (some err, f)
          | .ok f' => (none, f')

/-- The function `kustomize`. -/
def kustomize (env : Env) (fs : Store) (dir : String) :
    Except Error (List (Unstructured env.ObjMap)) :=
  match env.Run fs dir with
  | .error err => .error err
  | .ok resMap => .ok (resMap.foldl (fun result m => result ++ [⟨env.Map m⟩]) [])

/-- The function `Process`. -/
def Process (env : Env) (m : Manifest) (content : Bytes) (dir : String) :
    Outcome env.ObjMap :=
  let dir := if dir = "" then "." else dir
  match toFilesystem env m dir content with
  | .error err => ⟨[], false, some err, []⟩
  | .ok fs =>
    let d := Join [dir, KustomizeYAML]
    if !fs.Exists d then ⟨[], false, none, []⟩
    else
      let step : Option Error × Store :=
        if content.length > 0 then modifyKustomize env fs dir else (none, fs)
      match step.1 with
      | some err => ⟨[], false, some err, []⟩
      | none =>
        match kustomize env step.2 dir with
        | .error err => ⟨[], true, some err, [(step.2, dir)]⟩
        | .ok objs => ⟨objs, true, none, [(step.2, dir)]⟩

/-- The resource list of the declaration held at `<dir>/kustomization.yaml`, as
`modifyKustomize` reads it; `none` when the file is missing or unparseable. -/
def declResources (env : Env) (f : Store) (dir : String) : Option (List String) :=
  match f.ReadFile (Join [dir, KustomizeYAML]) with
  | .error _ => none
  | .ok b =>
    match env.Unmarshal b with
    | none => none
    | some d => some (env.ToStringSlice (d.get "resources"))

/-- The directory `Process` works in: `.` stands in for the empty string. -/
def entryDir (dir : String) : String := if dir = "" then "." else dir

/-- The store that reaches the engine: augmented when generated content was
supplied, untouched otherwise. -/
def engineStore (env : Env) (fs : Store) (content : Bytes) (dir : String) : Store :=
  if content.length > 0 then (modifyKustomize env fs dir).2 else fs

/-- The contract of the collaborators that reading a declaration back rests on:
a `[]string` is coerced to the same strings, and a serialised document parses
to a document with the same resource list. -/
def ListRoundTrip (env : Env) : Prop :=
  (∀ l : List String, env.ToStringSlice (some (env.ofStrings l)) = l) ∧
  (∀ (d : Doc env.Value) (bs : Bytes), env.Marshal d = .ok bs →
    ∃ d', env.Unmarshal bs = some d' ∧
      env.ToStringSlice (d'.get "resources") = env.ToStringSlice (d.get "resources"))

/-- The stronger contract of a codec without loss: a serialised document parses
to a document with the same value under every key. -/
def DocRoundTrip (env : Env) : Prop :=
  ∀ (d : Doc env.Value) (bs : Bytes), env.Marshal d = .ok bs →
    ∃ d', env.Unmarshal bs = some d' ∧ ∀ k, d'.get k = d.get k

/-- The path `s` has `f` as its last element. -/
def LastElem (f s : List Char) : Prop := s = f ∨ ∃ y, s = y ++ '/' :: f

/-- A file name proper: non-empty, without separator, neither `.` nor `..`. -/
def PlainName (f : List Char) : Prop :=
  '/' ∉ f ∧ f ≠ [] ∧ f ≠ ['.'] ∧ f ≠ ['.', '.']

/-! ## A sample environment

A small concrete instance of the collaborators, used to run the definitions on
explicit inputs. -/

/-- Dynamic values of the sample documents: a scalar string or a sequence of
strings. -/
inductive SampleValue where
  | scalar (s : String)
  | seq (l : List String)
  deriving DecidableEq, Repr

/-- A declaration listing one other resource. -/
def sampleYAML : Bytes := "namePrefix: dev-\nresources:\n- other.yaml\n"

/-- The document `sampleYAML` decodes to. -/
def sampleDoc : Doc SampleValue :=
  [("namePrefix", .scalar "dev-"), ("resources", .seq ["other.yaml"])]

/-- The document `sampleDoc` with the generated file appended. -/
def sampleDocOut : Doc SampleValue :=
  [("namePrefix", .scalar "dev-"), ("resources", .seq ["other.yaml", "manifests.yaml"])]

/-- The serialisation of `sampleDocOut`. -/
def sampleJSON : Bytes :=
  "\x7b\"namePrefix\":\"dev-\",\"resources\":[\"other.yaml\",\"manifests.yaml\"]\x7d"

/-- A declaration that lists the generated file twice. -/
def dupYAML : Bytes := "resources:\n- manifests.yaml\n- manifests.yaml\n"

/-- The document `dupYAML` decodes to. -/
def dupDoc : Doc SampleValue :=
  [("resources", .seq ["manifests.yaml", "manifests.yaml"])]

/-- A file that is not a key-value document. -/
def brokenYAML : Bytes := "- just\n- a list\n"

/-- The value of one character of the standard base64 alphabet. -/
def b64Value (c : Char) : Option Nat :=
  if 65 ≤ c.toNat ∧ c.toNat ≤ 90 then some (c.toNat - 65)
  else if 97 ≤ c.toNat ∧ c.toNat ≤ 122 then some (c.toNat - 71)
  else if 48 ≤ c.toNat ∧ c.toNat ≤ 57 then some (c.toNat + 4)
  else if c = '+' then some 62
  else if c = '/' then some 63
  else none

/-- Standard base64 with padding, four characters to at most three bytes;
`none` on a character outside the alphabet or a broken group. -/
def b64Decode : List Char → Option (List Nat)
  | [] => some []
  | a :: b :: c :: d :: rest =>
    match b64Value a, b64Value b with
    | some x, some y =>
      if c = '=' then
        if d = '=' ∧ rest = [] then some [(x * 4 + y / 16) % 256] else none
      else
        match b64Value c with
        | none => none
        | some z =>
          if d = '=' then
            if rest = [] then some [(x * 4 + y / 16) % 256, (y % 16 * 16 + z / 4) % 256]
            else none
          else
            match b64Value d with
            | none => none
            | some w =>
              match b64Decode rest with
              | none => none
              | some t =>
                some ((x * 4 + y / 16) % 256 :: (y % 16 * 16 + z / 4) % 256
                  :: (z % 4 * 64 + w) % 256 :: t)
    | _, _ => none
  | _ => none

/-- The sample codec: content tagged `base64` is decoded and fails when it is
not base64; content under any other tag is passed through as it is. -/
def sampleDecode (content encoding : String) : Except Error Bytes :=
  if encoding = "base64" then
    match b64Decode content.data with
    | some bytes => .ok (String.mk (bytes.map Char.ofNat))
    | none => .error "illegal base64 data"
  else .ok content

/-- The sample codec, reader, writer, store rule and engine. The engine
resolves a declaration to the names its resource list holds. -/
def sampleEnv : Env where
  Value := SampleValue
  Resource := String
  ObjMap := String
  Decode := sampleDecode
  Unmarshal := fun b =>
    if b = sampleYAML then some sampleDoc
    else if b = sampleJSON then some sampleDocOut
    else if b = dupYAML then some dupDoc
    else none
  Marshal := fun d =>
    if d = sampleDocOut then .ok sampleJSON else .error "json: unsupported value"
  ToStringSlice := fun v =>
    match v with
    | none => []
    | some (.scalar s) => [s]
    | some (.seq l) => l
  ofStrings := .seq
  createCheck := fun _ name =>
    if storeKey name = "/" then some "illegal name in file creation" else none
  writeCheck := fun _ _ => none
  Run := fun fs dir =>
    match assocGet fs (storeKey (Join [dir, KustomizeYAML])) with
    | none => .error "missing kustomization file"
    | some b =>
      if b = sampleYAML then .ok ["other.yaml"]
      else if b = sampleJSON then .ok ["other.yaml", "manifests.yaml"]
      else .error "invalid kustomization file"
  Map := fun r => r

/-- The sample environment with an engine that resolves any store to the paths
of its files, whatever the declaration holds. -/
def listingEnv : Env :=
  { sampleEnv with Run := fun fs _ => .ok (fs.map Prod.fst) }

/-- A bundle with one overlay declaration and one resource of another subsystem. -/
def sampleManifest : Manifest :=
  ⟨[⟨"kustomize/kustomization.yaml", sampleYAML, ""⟩, ⟨"chart/values.yaml", "a: b\n", ""⟩]⟩

/-- A store holding only the sample declaration. -/
def sampleStore : Store := [("/kustomization.yaml", sampleYAML)]

/-! ## Lemmas on finite maps and the store -/

theorem assocGet_assocSet_same {α : Type} (l : List (String × α)) (k : String) (v : α) :
    assocGet (assocSet l k v) k = some v := by
  induction l with
  | nil => simp [assocSet, assocGet]
  | cons p t ih =>
    obtain ⟨k', v'⟩ := p
    by_cases h : k' = k
    · simp [assocSet, assocGet, h]
    · simp [assocSet, assocGet, h, ih]

theorem assocGet_assocSet_other {α : Type} (l : List (String × α)) (k k' : String) (v : α)
    (h : k' ≠ k) : assocGet (assocSet l k v) k' = assocGet l k' := by
  induction l with
  | nil => simp [assocSet, assocGet, Ne.symm h]
  | cons p t ih =>
    obtain ⟨k₀, v₀⟩ := p
    by_cases h₀ : k₀ = k
    · subst h₀
      simp [assocSet, assocGet, Ne.symm h]
    · by_cases h₁ : k₀ = k'
      · subst h₁
        simp [assocSet, assocGet, h₀]
      · simp [assocSet, assocGet, h₀, h₁, ih]

theorem ReadFile_eq_ok_iff (f : Store) (path : String) (b : Bytes) :
    f.ReadFile path = .ok b ↔ assocGet f (storeKey path) = some b := by
  unfold Store.ReadFile
  cases h : assocGet f (storeKey path) <;> simp

theorem Exists_eq_true_iff (f : Store) (path : String) :
    f.Exists path = true ↔ ∃ b, f.ReadFile path = .ok b := by
  unfold Store.Exists Store.ReadFile
  cases h : assocGet f (storeKey path) <;> simp

theorem WriteFile_eq_ok (env : Env) (f f' : Store) (path : String) (d : Bytes)
    (h : WriteFile env f path d = .ok f') : f' = assocSet f (storeKey path) d := by
  unfold WriteFile at h
  cases hc : env.writeCheck f path with
  | some e =>
    rw [hc] at h
    cases h
  | none =>
    rw [hc] at h
    injection h with h
    exact h.symm

theorem ReadFile_assocSet_same (f : Store) (path : String) (d : Bytes) :
    Store.ReadFile (assocSet f (storeKey path) d) path = .ok d := by
  rw [ReadFile_eq_ok_iff]
  exact assocGet_assocSet_same f (storeKey path) d

theorem ContainsString_eq_true_iff (l : List String) (s : String) :
    ContainsString l s = true ↔ s ∈ l := by
  unfold ContainsString
  simp only [List.any_eq_true, decide_eq_true_eq]
  constructor
  · rintro ⟨x, hx, rfl⟩
    exact hx
  · intro h
    exact ⟨s, h, rfl⟩

/-- What `modifyKustomize` does once the declaration has been read and parsed. -/
theorem modifyKustomize_parsed (env : Env) (f : Store) (dir : String) (b : Bytes)
    (d : Doc env.Value)
    (hr : f.ReadFile (Join [dir, KustomizeYAML]) = .ok b)
    (hp : env.Unmarshal b = some d) :
    modifyKustomize env f dir =
      if ContainsString (env.ToStringSlice (d.get "resources")) ManifestsYAML then (none, f)
      else
        match env.Marshal (d.set "resources"
            (env.ofStrings (env.ToStringSlice (d.get "resources") ++ [ManifestsYAML]))) with
        | .error err => (some err, f)
        | .ok bs =>
          match WriteFile env f (Join [dir, KustomizeYAML]) bs with
          | .error err => (some err, f)
          | .ok f' => (none, f') := by
  unfold modifyKustomize
  simp only [hr, hp]

/-- The three ways `modifyKustomize` ends on a parsed declaration that lacks the
generated file: the writer fails, the store rejects the write, or the
serialised document is stored. -/
theorem modifyKustomize_missing (env : Env) (f : Store) (dir : String) (b : Bytes)
    (d : Doc env.Value)
    (hr : f.ReadFile (Join [dir, KustomizeYAML]) = .ok b)
    (hp : env.Unmarshal b = some d)
    (hc : ¬ ContainsString (env.ToStringSlice (d.get "resources")) ManifestsYAML = true) :
    (∃ e, modifyKustomize env f dir = (some e, f)) ∨
    ∃ bs, env.Marshal (d.set "resources"
        (env.ofStrings (env.ToStringSlice (d.get "resources") ++ [ManifestsYAML]))) = .ok bs ∧
      modifyKustomize env f dir = (none, assocSet f (storeKey (Join [dir, KustomizeYAML])) bs) := by
  have h1 := modifyKustomize_parsed env f dir b d hr hp
  rw [if_neg hc] at h1
  cases hm : env.Marshal (d.set "resources"
      (env.ofStrings (env.ToStringSlice (d.get "resources") ++ [ManifestsYAML]))) with
  | error e =>
    rw [hm] at h1
    exact Or.inl ⟨e, h1⟩
  | ok bs =>
    rw [hm] at h1
    simp only at h1
    cases hw : WriteFile env f (Join [dir, KustomizeYAML]) bs with
    | error e =>
      rw [hw] at h1
      exact Or.inl ⟨e, h1⟩
    | ok f' =>
      rw [hw] at h1
      have hf' := WriteFile_eq_ok env f f' _ bs hw
      subst hf'
      exact Or.inr ⟨bs, rfl, h1⟩

theorem kustomize_fold {α β : Type} (g : α → β) (l : List α) (acc : List β) :
    l.foldl (fun result m => result ++ [g m]) acc = acc ++ l.map g := by
  induction l generalizing acc with
  | nil => simp
  | cons a t ih => simp [ih]

/-- The function `kustomize` in terms of the engine: its error, or its resources
wrapped one by one in order. -/
theorem kustomize_eq (env : Env) (fs : Store) (dir : String) :
    kustomize env fs dir =
      match env.Run fs dir with
      | .error err => .error err
      | .ok rs => .ok (rs.map fun r => ⟨env.Map r⟩) := by
  unfold kustomize
  cases env.Run fs dir with
  | error e => rfl
  | ok rs =>
    simp only
    rw [kustomize_fold]
    rfl

theorem Doc_get_set_same {V : Type} (d : Doc V) (k : String) (v : V) :
    (d.set k v).get k = some v :=
  assocGet_assocSet_same d k v

theorem Doc_get_set_other {V : Type} (d : Doc V) (k k' : String) (v : V) (h : k' ≠ k) :
    (d.set k v).get k' = d.get k' :=
  assocGet_assocSet_other d k k' v h

theorem modifyKustomize_read_error (env : Env) (f : Store) (dir : String) (e : Error)
    (hr : f.ReadFile (Join [dir, KustomizeYAML]) = .error e) :
    modifyKustomize env f dir = (some e, f) := by
  unfold modifyKustomize
  simp only [hr]

theorem modifyKustomize_unparsed (env : Env) (f : Store) (dir : String) (b : Bytes)
    (hr : f.ReadFile (Join [dir, KustomizeYAML]) = .ok b)
    (hp : env.Unmarshal b = none) :
    modifyKustomize env f dir = (none, f) := by
  unfold modifyKustomize
  simp only [hr, hp]

theorem sampleEnv_docRoundTrip : DocRoundTrip sampleEnv := by
  intro (d : Doc SampleValue) bs hm
  have hm' : (if d = sampleDocOut then (Except.ok sampleJSON : Except Error Bytes)
      else .error "json: unsupported value") = .ok bs := hm
  by_cases hd : d = sampleDocOut
  · rw [if_pos hd] at hm'
    injection hm' with hbs
    subst hbs
    subst hd
    exact ⟨sampleDocOut, rfl, fun _ => rfl⟩
  · rw [if_neg hd] at hm'
    cases hm'

theorem sampleEnv_listRoundTrip : ListRoundTrip sampleEnv := by
  refine ⟨fun l => rfl, ?_⟩
  intro d bs hm
  obtain ⟨d', hd', hget⟩ := sampleEnv_docRoundTrip d bs hm
  exact ⟨d', hd', by rw [hget]⟩

/-! ## The claims about `modifyKustomize` -/

/-- C1 (idempotent augmentation). For every codec that honours its round-trip
contract, every store and every directory: the store that a second run of
`modifyKustomize` leaves is the store that the first run left, and so is the
resource list of the declaration in it. -/
theorem modifyKustomize_idempotent (env : Env) (hlaw : ListRoundTrip env) (f : Store)
    (dir : String) :
    (modifyKustomize env (modifyKustomize env f dir).2 dir).2 = (modifyKustomize env f dir).2 ∧
    declResources env (modifyKustomize env (modifyKustomize env f dir).2 dir).2 dir =
      declResources env (modifyKustomize env f dir).2 dir := by
  have key : (modifyKustomize env (modifyKustomize env f dir).2 dir).2
      = (modifyKustomize env f dir).2 := by
    cases hr : f.ReadFile (Join [dir, KustomizeYAML]) with
    | error e =>
      have h1 := modifyKustomize_read_error env f dir e hr
      rw [h1]
      simp only
      rw [h1]
    | ok b =>
      cases hp : env.Unmarshal b with
      | none =>
        have h1 := modifyKustomize_unparsed env f dir b hr hp
        rw [h1]
        simp only
        rw [h1]
      | some d =>
        have h1 := modifyKustomize_parsed env f dir b d hr hp
        by_cases hc : ContainsString (env.ToStringSlice (d.get "resources")) ManifestsYAML = true
        · rw [if_pos hc] at h1
          rw [h1]
          simp only
          rw [h1]
        · clear h1
          rcases modifyKustomize_missing env f dir b d hr hp hc with ⟨e, h1⟩ | ⟨bs, hm, h1⟩
          · rw [h1]
            simp only
            rw [h1]
          · rw [h1]
            simp only
            obtain ⟨d', hd', hget⟩ := hlaw.2 _ _ hm
            have hr2 := ReadFile_assocSet_same f (Join [dir, KustomizeYAML]) bs
            have h2 := modifyKustomize_parsed env _ dir bs d' hr2 hd'
            have hc2 : ContainsString (env.ToStringSlice (d'.get "resources")) ManifestsYAML
                = true := by
              rw [hget, Doc_get_set_same, hlaw.1, ContainsString_eq_true_iff]
              simp
            rw [if_pos hc2] at h2
            rw [h2]
  exact ⟨key, by rw [key]⟩

/-- Witness of C1 on the sample declaration: the first run appends the generated
file and writes the document back, the second run changes nothing. -/
theorem modifyKustomize_idempotent_witness :
    ListRoundTrip sampleEnv ∧
    (modifyKustomize sampleEnv sampleStore ".").2 = [("/kustomization.yaml", sampleJSON)] ∧
    (modifyKustomize sampleEnv (modifyKustomize sampleEnv sampleStore ".").2 ".").2
      = [("/kustomization.yaml", sampleJSON)] :=
  ⟨sampleEnv_listRoundTrip, by decide,
    (modifyKustomize_idempotent sampleEnv sampleEnv_listRoundTrip sampleStore ".").1.trans (by decide)⟩

/-- C2 as stated fails: a declaration that already lists `manifests.yaml` twice
is left as it is, `modifyKustomize` returns no error, and the list still holds
the entry twice. -/
theorem manifests_listed_twice_stays_twice :
    (modifyKustomize sampleEnv [("/kustomization.yaml", dupYAML)] ".").1 = none ∧
    declResources sampleEnv
        (modifyKustomize sampleEnv [("/kustomization.yaml", dupYAML)] ".").2 "."
      = some ["manifests.yaml", "manifests.yaml"] ∧
    ¬ List.count ManifestsYAML ["manifests.yaml", "manifests.yaml"] ≤ 1 := by
  decide

/-- C2, amended. For every codec that honours its round-trip contract and every
parseable declaration whose resource list is `rs`: after `modifyKustomize`
returns without error the declaration in the store is parseable and its list
holds `manifests.yaml` exactly `max 1 n` times, `n` being the number of
occurrences in `rs`; in particular at most once when `n ≤ 1`. -/
theorem manifests_count_after_modifyKustomize (env : Env) (hlaw : ListRoundTrip env)
    (f : Store) (dir : String) (rs : List String)
    (hdoc : declResources env f dir = some rs)
    (hok : (modifyKustomize env f dir).1 = none) :
    ∃ rs', declResources env (modifyKustomize env f dir).2 dir = some rs' ∧
      rs'.count ManifestsYAML = max 1 (rs.count ManifestsYAML) ∧
      (rs.count ManifestsYAML ≤ 1 → rs'.count ManifestsYAML ≤ 1) := by
  have hcount : ∀ rs' : List String,
      rs'.count ManifestsYAML = max 1 (rs.count ManifestsYAML) →
      rs'.count ManifestsYAML = max 1 (rs.count ManifestsYAML) ∧
      (rs.count ManifestsYAML ≤ 1 → rs'.count ManifestsYAML ≤ 1) := by
    intro rs' h
    refine ⟨h, fun hle => ?_⟩
    rw [h]
    omega
  cases hr : f.ReadFile (Join [dir, KustomizeYAML]) with
  | error e => simp [declResources, hr] at hdoc
  | ok b =>
    cases hp : env.Unmarshal b with
    | none => simp [declResources, hr, hp] at hdoc
    | some d =>
      have hrs : env.ToStringSlice (d.get "resources") = rs := by
        simpa [declResources, hr, hp] using hdoc
      have h1 := modifyKustomize_parsed env f dir b d hr hp
      rw [hrs] at h1
      by_cases hc : ContainsString rs ManifestsYAML = true
      · rw [if_pos hc] at h1
        rw [h1]
        refine ⟨rs, hdoc, hcount rs ?_⟩
        have hpos : 0 < rs.count ManifestsYAML :=
          List.count_pos_iff.2 ((ContainsString_eq_true_iff _ _).1 hc)
        omega
      · clear h1
        have hc' : ¬ ContainsString (env.ToStringSlice (d.get "resources")) ManifestsYAML
            = true := by
          rw [hrs]
          exact hc
        rcases modifyKustomize_missing env f dir b d hr hp hc' with ⟨e, h1⟩ | ⟨bs, hm, h1⟩
        · rw [h1] at hok
          cases hok
        · rw [hrs] at hm
          rw [h1]
          obtain ⟨d', hd', hget⟩ := hlaw.2 _ _ hm
          have hr2 := ReadFile_assocSet_same f (Join [dir, KustomizeYAML]) bs
          refine ⟨rs ++ [ManifestsYAML], ?_, hcount _ ?_⟩
          · simp only [declResources, hr2, hd']
            rw [hget, Doc_get_set_same, hlaw.1]
          · have hnot : ManifestsYAML ∉ rs := fun hmem =>
              hc ((ContainsString_eq_true_iff _ _).2 hmem)
            rw [List.count_append, List.count_eq_zero_of_not_mem hnot]
            simp

/-- Witness of the amended C2 on the sample declaration, which lists the
generated file zero times before and once after. -/
theorem manifests_count_after_modifyKustomize_witness :
    declResources sampleEnv sampleStore "." = some ["other.yaml"] ∧
    ∃ rs', declResources sampleEnv (modifyKustomize sampleEnv sampleStore ".").2 "." = some rs' ∧
      rs'.count ManifestsYAML = max 1 (List.count ManifestsYAML ["other.yaml"]) ∧
      (List.count ManifestsYAML ["other.yaml"] ≤ 1 → rs'.count ManifestsYAML ≤ 1) :=
  ⟨by decide,
    manifests_count_after_modifyKustomize sampleEnv sampleEnv_listRoundTrip sampleStore "."
      ["other.yaml"] (by decide) (by decide)⟩

/-- C3 (field preservation). For every store whose declaration reads as `b` and
parses to `d`: the bytes `modifyKustomize` leaves at the declaration's path are
either `b` itself or the serialisation of a document that has, under every key
other than `resources`, exactly what `d` has there (a value, or nothing); and
for a codec without loss the document parsed from those bytes agrees with `d`
on every such key. -/
theorem modifyKustomize_preserves_other_keys (env : Env) (f : Store) (dir : String)
    (b : Bytes) (d : Doc env.Value)
    (hr : f.ReadFile (Join [dir, KustomizeYAML]) = .ok b)
    (hp : env.Unmarshal b = some d) :
    ∃ b', (modifyKustomize env f dir).2.ReadFile (Join [dir, KustomizeYAML]) = .ok b' ∧
      (b' = b ∨ ∃ d₁, env.Marshal d₁ = .ok b' ∧ ∀ k, k ≠ "resources" → d₁.get k = d.get k) ∧
      (DocRoundTrip env →
        ∃ d₂, env.Unmarshal b' = some d₂ ∧ ∀ k, k ≠ "resources" → d₂.get k = d.get k) := by
  have same : ∃ b', f.ReadFile (Join [dir, KustomizeYAML]) = .ok b' ∧
      (b' = b ∨ ∃ d₁, env.Marshal d₁ = .ok b' ∧ ∀ k, k ≠ "resources" → d₁.get k = d.get k) ∧
      (DocRoundTrip env →
        ∃ d₂, env.Unmarshal b' = some d₂ ∧ ∀ k, k ≠ "resources" → d₂.get k = d.get k) :=
    ⟨b, hr, Or.inl rfl, fun _ => ⟨d, hp, fun _ _ => rfl⟩⟩
  have h1 := modifyKustomize_parsed env f dir b d hr hp
  by_cases hc : ContainsString (env.ToStringSlice (d.get "resources")) ManifestsYAML = true
  · rw [if_pos hc] at h1
    rw [h1]
    exact same
  · clear h1
    rcases modifyKustomize_missing env f dir b d hr hp hc with ⟨e, h1⟩ | ⟨bs, hm, h1⟩
    · rw [h1]
      exact same
    · rw [h1]
      refine ⟨bs, ReadFile_assocSet_same f _ bs, Or.inr ⟨_, hm, ?_⟩, ?_⟩
      · intro k hk
        exact Doc_get_set_other d "resources" k _ hk
      · intro hlaw
        obtain ⟨d', hd', hget⟩ := hlaw _ _ hm
        refine ⟨d', hd', ?_⟩
        intro k hk
        rw [hget k]
        exact Doc_get_set_other d "resources" k _ hk

/-- Witness of C3 on the sample declaration: the key `namePrefix` keeps its
value through the rewrite. -/
theorem modifyKustomize_preserves_other_keys_witness :
    sampleStore.ReadFile (Join [".", KustomizeYAML]) = .ok sampleYAML ∧
    sampleEnv.Unmarshal sampleYAML = some sampleDoc ∧
    ∃ b', (modifyKustomize sampleEnv sampleStore ".").2.ReadFile (Join [".", KustomizeYAML])
        = .ok b' ∧
      (b' = sampleYAML ∨ ∃ d₁, sampleEnv.Marshal d₁ = .ok b' ∧
        ∀ k, k ≠ "resources" → d₁.get k = Doc.get sampleDoc k) ∧
      (DocRoundTrip sampleEnv →
        ∃ d₂, sampleEnv.Unmarshal b' = some d₂ ∧
          ∀ k, k ≠ "resources" → d₂.get k = Doc.get sampleDoc k) :=
  ⟨rfl, rfl,
    modifyKustomize_preserves_other_keys sampleEnv sampleStore "." sampleYAML sampleDoc rfl rfl⟩

/-- C7 (scenario A, append). For every store whose declaration reads as `b` and
parses to `d`, with `manifests.yaml` not in the resource list `rs` of `d`: when
`modifyKustomize` returns without error, the bytes at the declaration's path are
the serialisation of a document whose `resources` value is the string list
`rs ++ ["manifests.yaml"]`, which is `["manifests.yaml"]` when the key is absent
and the coercion turns nil into the empty list, and whose other keys are those
of `d`; for a codec that honours its round-trip contract the resource list read
back from the store is `rs ++ ["manifests.yaml"]`. -/
theorem modifyKustomize_appends (env : Env) (f : Store) (dir : String)
    (b : Bytes) (d : Doc env.Value)
    (hr : f.ReadFile (Join [dir, KustomizeYAML]) = .ok b)
    (hp : env.Unmarshal b = some d)
    (hnot : ManifestsYAML ∉ env.ToStringSlice (d.get "resources"))
    (hok : (modifyKustomize env f dir).1 = none) :
    ∃ d₁ bs, env.Marshal d₁ = .ok bs ∧
      (modifyKustomize env f dir).2.ReadFile (Join [dir, KustomizeYAML]) = .ok bs ∧
      d₁.get "resources"
        = some (env.ofStrings (env.ToStringSlice (d.get "resources") ++ [ManifestsYAML])) ∧
      (d.get "resources" = none → env.ToStringSlice none = [] →
        d₁.get "resources" = some (env.ofStrings [ManifestsYAML])) ∧
      (∀ k, k ≠ "resources" → d₁.get k = d.get k) ∧
      (ListRoundTrip env → declResources env (modifyKustomize env f dir).2 dir
        = some (env.ToStringSlice (d.get "resources") ++ [ManifestsYAML])) := by
  have hc : ¬ ContainsString (env.ToStringSlice (d.get "resources")) ManifestsYAML = true :=
    fun h => hnot ((ContainsString_eq_true_iff _ _).1 h)
  rcases modifyKustomize_missing env f dir b d hr hp hc with ⟨e, h1⟩ | ⟨bs, hm, h1⟩
  · rw [h1] at hok
    cases hok
  · rw [h1]
    have hr2 := ReadFile_assocSet_same f (Join [dir, KustomizeYAML]) bs
    refine ⟨_, bs, hm, hr2, Doc_get_set_same d "resources" _, ?_, ?_, ?_⟩
    · intro hnone hnil
      rw [Doc_get_set_same, hnone, hnil]
      rfl
    · intro k hk
      exact Doc_get_set_other d "resources" k _ hk
    · intro hlaw
      obtain ⟨d', hd', hget⟩ := hlaw.2 _ _ hm
      simp only [declResources, hr2, hd']
      rw [hget, Doc_get_set_same, hlaw.1]

/-- Witness of C7 on the sample declaration `resources: [other.yaml]`. -/
theorem modifyKustomize_appends_witness :
    ManifestsYAML ∉ sampleEnv.ToStringSlice (Doc.get sampleDoc "resources") ∧
    (modifyKustomize sampleEnv sampleStore ".").1 = none ∧
    ∃ d₁ bs, sampleEnv.Marshal d₁ = .ok bs ∧
      (modifyKustomize sampleEnv sampleStore ".").2.ReadFile (Join [".", KustomizeYAML])
        = .ok bs ∧
      d₁.get "resources" = some (sampleEnv.ofStrings
        (sampleEnv.ToStringSlice (Doc.get sampleDoc "resources") ++ [ManifestsYAML])) ∧
      (Doc.get sampleDoc "resources" = none → sampleEnv.ToStringSlice none = [] →
        d₁.get "resources" = some (sampleEnv.ofStrings [ManifestsYAML])) ∧
      (∀ k, k ≠ "resources" → d₁.get k = Doc.get sampleDoc k) ∧
      (ListRoundTrip sampleEnv → declResources sampleEnv (modifyKustomize sampleEnv sampleStore ".").2 "."
        = some (sampleEnv.ToStringSlice (Doc.get sampleDoc "resources") ++ [ManifestsYAML])) :=
  ⟨by decide, by decide,
    modifyKustomize_appends sampleEnv sampleStore "." sampleYAML sampleDoc rfl rfl
      (by decide) (by decide)⟩

/-! ## The claims about `Process` after the store is built -/

theorem Process_error_of_toFilesystem (env : Env) (m : Manifest) (content : Bytes)
    (dir : String) (e : Error)
    (hfs : toFilesystem env m (entryDir dir) content = .error e) :
    Process env m content dir = ⟨[], false, some e, []⟩ := by
  unfold Process
  unfold entryDir at hfs
  simp only [hfs]

theorem Process_not_applicable (env : Env) (m : Manifest) (content : Bytes)
    (dir : String) (fs : Store)
    (hfs : toFilesystem env m (entryDir dir) content = .ok fs)
    (hex : fs.Exists (Join [entryDir dir, KustomizeYAML]) = false) :
    Process env m content dir = ⟨[], false, none, []⟩ := by
  unfold Process
  unfold entryDir at hfs hex
  simp only [hfs, hex]
  rfl

theorem Process_resolve (env : Env) (m : Manifest) (content : Bytes)
    (dir : String) (fs : Store)
    (hfs : toFilesystem env m (entryDir dir) content = .ok fs)
    (hex : fs.Exists (Join [entryDir dir, KustomizeYAML]) = true)
    (haug : content.length > 0 → (modifyKustomize env fs (entryDir dir)).1 = none) :
    Process env m content dir =
      match kustomize env (engineStore env fs content (entryDir dir)) (entryDir dir) with
      | .error err =>
        ⟨[], true, some err, [(engineStore env fs content (entryDir dir), entryDir dir)]⟩
      | .ok objs =>
        ⟨objs, true, none, [(engineStore env fs content (entryDir dir), entryDir dir)]⟩ := by
  unfold Process engineStore
  unfold entryDir at hfs hex haug ⊢
  simp only [hfs, hex]
  by_cases hc : content.length > 0
  · have h := haug hc
    simp only [hc, if_true, h]
    rfl
  · simp only [hc, if_false]
    rfl

/-- C9 (tolerated parse failure). For every store whose declaration can be read
but not parsed, `modifyKustomize` returns no error and leaves the store as it
was; and when that store is the one `toFilesystem` built, `Process` runs the
engine on exactly that store and directory and returns what the engine gives:
its error with `usedOverlay = true`, or one object per resolved resource, in
order, with `usedOverlay = true` and no error. -/
theorem unparseable_declaration_tolerated (env : Env) (f : Store) (dir : String) (b : Bytes)
    (hr : f.ReadFile (Join [dir, KustomizeYAML]) = .ok b)
    (hp : env.Unmarshal b = none) :
    modifyKustomize env f dir = (none, f) ∧
    ∀ (m : Manifest) (content : Bytes) (dir₀ : String),
      entryDir dir₀ = dir →
      toFilesystem env m dir content = .ok f →
      Process env m content dir₀ =
        match env.Run f dir with
        | .error err => ⟨[], true, some err, [(f, dir)]⟩
        | .ok rs => ⟨rs.map fun r => ⟨env.Map r⟩, true, none, [(f, dir)]⟩ := by
  have hmod := modifyKustomize_unparsed env f dir b hr hp
  refine ⟨hmod, ?_⟩
  intro m content dir₀ hdir hfs
  subst hdir
  have hex : f.Exists (Join [entryDir dir₀, KustomizeYAML]) = true :=
    (Exists_eq_true_iff f _).2 ⟨b, hr⟩
  have hstore : engineStore env f content (entryDir dir₀) = f := by
    unfold engineStore
    split
    · rw [hmod]
    · rfl
  have h := Process_resolve env m content dir₀ f hfs hex (fun _ => by rw [hmod])
  rw [hstore, kustomize_eq] at h
  rw [h]
  cases env.Run f (entryDir dir₀) <;> rfl

/-- Witness of C9: a bundle whose declaration is a YAML list, with an engine
that resolves a store to the paths of its files. The engine receives the store
with the declaration's bytes as they were, and its two resources are what
`Process` returns. -/
theorem unparseable_declaration_tolerated_witness :
    Store.ReadFile [("/kustomization.yaml", brokenYAML), ("/manifests.yaml", "x")]
        (Join [".", KustomizeYAML]) = .ok brokenYAML ∧
    listingEnv.Unmarshal brokenYAML = none ∧
    modifyKustomize listingEnv [("/kustomization.yaml", brokenYAML), ("/manifests.yaml", "x")] "."
      = (none, [("/kustomization.yaml", brokenYAML), ("/manifests.yaml", "x")]) ∧
    Process listingEnv ⟨[⟨"kustomize/kustomization.yaml", brokenYAML, ""⟩]⟩ "x" ""
      = ⟨[⟨"/kustomization.yaml"⟩, ⟨"/manifests.yaml"⟩], true, none,
          [([("/kustomization.yaml", brokenYAML), ("/manifests.yaml", "x")], ".")]⟩ :=
  ⟨rfl, rfl,
    (unparseable_declaration_tolerated listingEnv
      [("/kustomization.yaml", brokenYAML), ("/manifests.yaml", "x")] "." brokenYAML rfl rfl).1,
    (unparseable_declaration_tolerated listingEnv
      [("/kustomization.yaml", brokenYAML), ("/manifests.yaml", "x")] "." brokenYAML rfl rfl).2
      ⟨[⟨"kustomize/kustomization.yaml", brokenYAML, ""⟩]⟩ "x" "" rfl rfl⟩

/-- C10 (resolution result). For every bundle whose store is built, holds the
declaration and is augmented without error (when generated content was
supplied), and for which the engine resolves the resources `rs`: `Process`
returns `usedOverlay = true`, no error, and the list that has, for each
resource of `rs` in the engine's order, one object wrapping that resource's
map; the engine ran once, on the store that augmentation left. -/
theorem Process_resolution_result (env : Env) (m : Manifest) (content : Bytes)
    (dir : String) (fs : Store) (rs : List env.Resource)
    (hfs : toFilesystem env m (entryDir dir) content = .ok fs)
    (hex : fs.Exists (Join [entryDir dir, KustomizeYAML]) = true)
    (haug : content.length > 0 → (modifyKustomize env fs (entryDir dir)).1 = none)
    (hrun : env.Run (engineStore env fs content (entryDir dir)) (entryDir dir) = .ok rs) :
    Process env m content dir =
      ⟨rs.map fun r => ⟨env.Map r⟩, true, none,
        [(engineStore env fs content (entryDir dir), entryDir dir)]⟩ := by
  have h := Process_resolve env m content dir fs hfs hex haug
  have hk : kustomize env (engineStore env fs content (entryDir dir)) (entryDir dir)
      = .ok (rs.map fun r => ⟨env.Map r⟩) := by
    unfold kustomize
    simp only [hrun]
    rw [kustomize_fold]
    rfl
  rw [hk] at h
  exact h

/-- Witness of C10 on the sample bundle: the engine resolves the two listed
resources, and `Process` returns them in that order. -/
theorem Process_resolution_result_witness :
    toFilesystem sampleEnv sampleManifest (entryDir "") "x"
      = .ok [("/kustomization.yaml", sampleYAML), ("/manifests.yaml", "x")] ∧
    Process sampleEnv sampleManifest "x" "" =
      ⟨[⟨"other.yaml"⟩, ⟨"manifests.yaml"⟩], true, none,
        [([("/kustomization.yaml", sampleJSON), ("/manifests.yaml", "x")], ".")]⟩ :=
  ⟨rfl,
    Process_resolution_result sampleEnv sampleManifest "x" ""
      [("/kustomization.yaml", sampleYAML), ("/manifests.yaml", "x")]
      ["other.yaml", "manifests.yaml"] rfl rfl (fun _ => rfl) rfl⟩

/-! ## Paths: the last element survives cleaning -/

theorem splitSep_ne_nil (s : List Char) : splitSep s ≠ [] := by
  cases s with
  | nil => simp [splitSep]
  | cons c cs =>
    unfold splitSep
    split
    · simp
    · split <;> simp

theorem splitSep_plain (f : List Char) (h : '/' ∉ f) : splitSep f = [f] := by
  induction f with
  | nil => rfl
  | cons c cs ih =>
    have hc : c ≠ '/' := fun e => h (by simp [e])
    have hcs : '/' ∉ cs := fun e => h (by simp [e])
    unfold splitSep
    rw [if_neg hc, ih hcs]

theorem splitSep_append (y f : List Char) (h : '/' ∉ f) :
    splitSep (y ++ '/' :: f) = splitSep y ++ [f] := by
  induction y with
  | nil =>
    show splitSep ('/' :: f) = splitSep [] ++ [f]
    unfold splitSep
    rw [if_pos rfl, splitSep_plain f h]
    rfl
  | cons c cs ih =>
    show splitSep (c :: (cs ++ '/' :: f)) = splitSep (c :: cs) ++ [f]
    by_cases hc : c = '/'
    · rw [splitSep, if_pos hc, ih, splitSep, if_pos hc]
      rfl
    · rw [splitSep, if_neg hc, ih, splitSep, if_neg hc]
      cases hs : splitSep cs with
      | nil => exact absurd hs (splitSep_ne_nil cs)
      | cons a t => rfl

theorem joinSep_append_singleton (l : List (List Char)) (f : List Char) (h : l ≠ []) :
    joinSep (l ++ [f]) = joinSep l ++ '/' :: f := by
  induction l with
  | nil => exact absurd rfl h
  | cons a t ih =>
    cases t with
    | nil => rfl
    | cons b t' =>
      show joinSep (a :: b :: (t' ++ [f])) = joinSep (a :: b :: t') ++ '/' :: f
      have ih' := ih (by simp)
      simp only [joinSep]
      rw [show b :: (t' ++ [f]) = (b :: t') ++ [f] from rfl, ih']
      simp

theorem cleanStep_plain (rooted : Bool) (stack : List (List Char)) (f : List Char)
    (hf : PlainName f) : cleanStep rooted stack f = f :: stack := by
  obtain ⟨_, h1, h2, h3⟩ := hf
  unfold cleanStep
  rw [if_neg (by simp [h1, h2]), if_neg h3]

theorem LastElem_joinSep (pre : List Char) (st : List (List Char)) (f : List Char)
    (hpre : pre = [] ∨ pre = ['/']) :
    LastElem f (pre ++ joinSep (st ++ [f])) := by
  by_cases hst : st = []
  · subst hst
    rcases hpre with h | h
    · subst h
      exact Or.inl rfl
    · subst h
      exact Or.inr ⟨[], rfl⟩
  · rw [joinSep_append_singleton st f hst]
    exact Or.inr ⟨pre ++ joinSep st, by simp⟩

theorem cleanChars_lastElem (f s : List Char) (hf : PlainName f) (h : LastElem f s) :
    LastElem f (cleanChars s) := by
  have hsplit : ∃ comps, splitSep s = comps ++ [f] := by
    rcases h with h | ⟨y, h⟩
    · subst h
      exact ⟨[], splitSep_plain s hf.1⟩
    · subst h
      exact ⟨splitSep y, splitSep_append y f hf.1⟩
  obtain ⟨comps, hc⟩ := hsplit
  unfold cleanChars
  simp only [hc, List.foldl_append, List.foldl_cons, List.foldl_nil, cleanStep_plain _ _ f hf,
    List.reverse_cons]
  have hne : ∀ (pre : List Char) (st : List (List Char)), pre ++ joinSep (st ++ [f]) ≠ [] := by
    intro pre st hnil
    rcases List.append_eq_nil.1 hnil with ⟨_, hj⟩
    by_cases hst : st = []
    · subst hst
      exact hf.2.1 hj
    · rw [joinSep_append_singleton st f hst] at hj
      simp at hj
  rw [if_neg (hne _ _)]
  apply LastElem_joinSep
  split <;> simp

theorem Join_lastElem (dir f : String) (hf : PlainName f.data) :
    LastElem f.data (Join [dir, f]).data := by
  have hfne : f ≠ "" := by
    intro e
    subst e
    exact hf.2.1 rfl
  by_cases hd : dir = ""
  · simp only [Join, hd, if_true, if_neg hfne, List.map, joinSep, Clean]
    exact cleanChars_lastElem _ _ hf (Or.inl rfl)
  · simp only [Join, if_neg hd, List.map, joinSep, Clean]
    exact cleanChars_lastElem _ _ hf (Or.inr ⟨dir.data, rfl⟩)

theorem storeKey_lastElem (f : List Char) (p : String) (hf : PlainName f)
    (h : LastElem f p.data) : LastElem f (storeKey p).data := by
  show LastElem f (cleanChars ("/" ++ p).data)
  apply cleanChars_lastElem _ _ hf
  rw [String.data_append]
  show LastElem f ('/' :: p.data)
  rcases h with h | ⟨y, h⟩
  · rw [h]
    exact Or.inr ⟨[], rfl⟩
  · rw [h]
    exact Or.inr ⟨'/' :: y, rfl⟩

theorem LastElem_reverse_take (f s : List Char) (n : Nat) (hn : n ≤ f.length)
    (h : LastElem f s) : s.reverse.take n = f.reverse.take n := by
  rcases h with h | ⟨y, h⟩
  · rw [h]
  · rw [h, List.reverse_append, List.reverse_cons, List.append_assoc,
      List.take_append_of_le_length (by simpa using hn)]

/-- The generated file and the declaration never share a store path. -/
theorem storeKey_manifests_ne_kustomization (dir : String) :
    storeKey (Join [dir, ManifestsYAML]) ≠ storeKey (Join [dir, KustomizeYAML]) := by
  intro heq
  have hM : PlainName ManifestsYAML.data := ⟨by decide, by decide, by decide, by decide⟩
  have hK : PlainName KustomizeYAML.data := ⟨by decide, by decide, by decide, by decide⟩
  have h1 := storeKey_lastElem _ _ hM (Join_lastElem dir ManifestsYAML hM)
  have h2 := storeKey_lastElem _ _ hK (Join_lastElem dir KustomizeYAML hK)
  rw [heq] at h1
  have e1 := LastElem_reverse_take _ _ 6 (by decide) h1
  have e2 := LastElem_reverse_take _ _ 6 (by decide) h2
  rw [e1] at e2
  revert e2
  decide

/-! ## Lemmas on building the store -/

theorem AddFile_eq_ok (env : Env) (f f' : Store) (name : String) (c : Bytes)
    (h : AddFile env f name c = .ok f') : f' = assocSet f (storeKey name) c := by
  unfold AddFile at h
  cases hc : env.createCheck f name with
  | some e =>
    rw [hc] at h
    cases h
  | none =>
    rw [hc] at h
    injection h with h
    exact h.symm

theorem addResources_cons_skip (env : Env) (r : BundleResource) (rest : List BundleResource)
    (f : Store) (hr : HasPrefix r.Name "kustomize/" = false) :
    addResources env (r :: rest) f = addResources env rest f := by
  rw [addResources]
  simp [hr]

theorem addResources_cons_ok (env : Env) (r : BundleResource) (rest : List BundleResource)
    (f f' : Store) (hr : HasPrefix r.Name "kustomize/" = true)
    (h : addResources env (r :: rest) f = .ok f') :
    ∃ data, env.Decode r.Content r.Encoding = .ok data ∧
      addResources env rest (assocSet f (storeKey (TrimPrefix r.Name "kustomize/")) data)
        = .ok f' := by
  rw [addResources] at h
  simp only [hr, Bool.not_true, Bool.false_eq_true, if_false] at h
  cases hd : env.Decode r.Content r.Encoding with
  | error e =>
    rw [hd] at h
    cases h
  | ok data =>
    rw [hd] at h
    simp only at h
    cases ha : AddFile env f (TrimPrefix r.Name "kustomize/") data with
    | error e =>
      rw [ha] at h
      cases h
    | ok f₁ =>
      rw [ha] at h
      simp only at h
      have hf₁ := AddFile_eq_ok env f f₁ _ data ha
      subst hf₁
      exact ⟨data, rfl, h⟩

theorem addResources_filter (env : Env) (rs : List BundleResource) (f : Store) :
    addResources env (rs.filter fun r => HasPrefix r.Name "kustomize/") f
      = addResources env rs f := by
  induction rs generalizing f with
  | nil => rfl
  | cons r rest ih =>
    cases hr : HasPrefix r.Name "kustomize/" with
    | false =>
      rw [List.filter_cons_of_neg (by simp [hr]), addResources_cons_skip env r rest f hr]
      exact ih f
    | true =>
      rw [List.filter_cons_of_pos (by simp [hr])]
      rw [addResources, addResources]
      simp only [hr, Bool.not_true, Bool.false_eq_true, if_false]
      cases env.Decode r.Content r.Encoding with
      | error e => rfl
      | ok data =>
        simp only
        cases AddFile env f (TrimPrefix r.Name "kustomize/") data with
        | error e => rfl
        | ok f₁ => exact ih f₁

theorem assocGet_assocSet_cases {α : Type} (l : List (String × α)) (k k' : String) (v b : α)
    (h : assocGet (assocSet l k v) k' = some b) : k' = k ∨ assocGet l k' = some b := by
  by_cases hk : k' = k
  · exact Or.inl hk
  · rw [assocGet_assocSet_other l k k' v hk] at h
    exact Or.inr h

/-- Every file in the store after the loop was there before or is the stripped
name of a prefixed resource. -/
theorem addResources_origin (env : Env) (rs : List BundleResource) (f f' : Store)
    (k : String) (b : Bytes)
    (h : addResources env rs f = .ok f') (hk : assocGet f' k = some b) :
    (∃ b₀, assocGet f k = some b₀) ∨
    ∃ r ∈ rs, HasPrefix r.Name "kustomize/" = true ∧
      k = storeKey (TrimPrefix r.Name "kustomize/") := by
  induction rs generalizing f with
  | nil =>
    rw [addResources] at h
    injection h with h
    subst h
    exact Or.inl ⟨b, hk⟩
  | cons r rest ih =>
    cases hr : HasPrefix r.Name "kustomize/" with
    | false =>
      rw [addResources_cons_skip env r rest f hr] at h
      rcases ih f h with h0 | ⟨q, hq, hq'⟩
      · exact Or.inl h0
      · exact Or.inr ⟨q, List.mem_cons_of_mem _ hq, hq'⟩
    | true =>
      obtain ⟨data, _, hrest⟩ := addResources_cons_ok env r rest f f' hr h
      rcases ih _ hrest with ⟨b₀, h0⟩ | ⟨q, hq, hq'⟩
      · rcases assocGet_assocSet_cases f _ k data b₀ h0 with h1 | h1
        · exact Or.inr ⟨r, List.mem_cons_self _ _, hr, h1⟩
        · exact Or.inl ⟨b₀, h1⟩
      · exact Or.inr ⟨q, List.mem_cons_of_mem _ hq, hq'⟩

/-- The loop leaves alone every path that no prefixed resource is filed under. -/
theorem addResources_frame (env : Env) (rs : List BundleResource) (f f' : Store)
    (k : String)
    (h : addResources env rs f = .ok f')
    (hk : ∀ r ∈ rs, HasPrefix r.Name "kustomize/" = true →
      storeKey (TrimPrefix r.Name "kustomize/") ≠ k) :
    assocGet f' k = assocGet f k := by
  induction rs generalizing f with
  | nil =>
    rw [addResources] at h
    injection h with h
    rw [h]
  | cons r rest ih =>
    have hk' : ∀ q ∈ rest, HasPrefix q.Name "kustomize/" = true →
        storeKey (TrimPrefix q.Name "kustomize/") ≠ k :=
      fun q hq => hk q (List.mem_cons_of_mem _ hq)
    cases hr : HasPrefix r.Name "kustomize/" with
    | false =>
      rw [addResources_cons_skip env r rest f hr] at h
      exact ih f h hk'
    | true =>
      obtain ⟨data, _, hrest⟩ := addResources_cons_ok env r rest f f' hr h
      rw [ih _ hrest hk']
      exact assocGet_assocSet_other f _ k data (Ne.symm (hk r (List.mem_cons_self _ _) hr))

/-- With pairwise distinct store paths, the loop leaves at each prefixed
resource's path that resource's decoded content. -/
theorem addResources_holds (env : Env) (rs : List BundleResource) (f f' : Store)
    (h : addResources env rs f = .ok f')
    (hd : (rs.filter fun r => HasPrefix r.Name "kustomize/").Pairwise fun a b =>
      storeKey (TrimPrefix a.Name "kustomize/") ≠ storeKey (TrimPrefix b.Name "kustomize/"))
    (r : BundleResource) (hmem : r ∈ rs) (hr : HasPrefix r.Name "kustomize/" = true) :
    ∃ data, env.Decode r.Content r.Encoding = .ok data ∧
      assocGet f' (storeKey (TrimPrefix r.Name "kustomize/")) = some data := by
  induction rs generalizing f with
  | nil => cases hmem
  | cons q rest ih =>
    cases hq : HasPrefix q.Name "kustomize/" with
    | false =>
      rw [addResources_cons_skip env q rest f hq] at h
      rw [List.filter_cons_of_neg (by simp [hq])] at hd
      rcases List.mem_cons.1 hmem with e | hmem'
      · subst e
        rw [hr] at hq
        cases hq
      · exact ih f h hd hmem'
    | true =>
      obtain ⟨data, hdec, hrest⟩ := addResources_cons_ok env q rest f f' hq h
      rw [List.filter_cons_of_pos (by simp [hq])] at hd
      obtain ⟨hhead, htail⟩ := List.pairwise_cons.1 hd
      rcases List.mem_cons.1 hmem with e | hmem'
      · subst e
        refine ⟨data, hdec, ?_⟩
        rw [addResources_frame env rest _ f' _ hrest]
        · exact assocGet_assocSet_same f _ data
        · intro p hp hpp
          exact Ne.symm (hhead p (List.mem_filter.2 ⟨hp, by simp [hpp]⟩))
      · exact ih _ hrest htail hmem'

/-- The loop fails as soon as a prefixed resource does not decode. -/
theorem addResources_fails (env : Env) (rs : List BundleResource) (f : Store)
    (h : ∃ r ∈ rs, HasPrefix r.Name "kustomize/" = true ∧
      ∃ e, env.Decode r.Content r.Encoding = .error e) :
    ∃ e', addResources env rs f = .error e' := by
  induction rs generalizing f with
  | nil =>
    obtain ⟨r, hr, _⟩ := h
    cases hr
  | cons q rest ih =>
    obtain ⟨r, hmem, hr, e, he⟩ := h
    cases hq : HasPrefix q.Name "kustomize/" with
    | false =>
      rw [addResources_cons_skip env q rest f hq]
      rcases List.mem_cons.1 hmem with e' | hmem'
      · subst e'
        rw [hr] at hq
        cases hq
      · exact ih f ⟨r, hmem', hr, e, he⟩
    | true =>
      rw [addResources]
      simp only [hq, Bool.not_true, Bool.false_eq_true, if_false]
      cases hd : env.Decode q.Content q.Encoding with
      | error e₁ => exact ⟨e₁, rfl⟩
      | ok data =>
        simp only
        cases ha : AddFile env f (TrimPrefix q.Name "kustomize/") data with
        | error e₁ => exact ⟨e₁, rfl⟩
        | ok f₁ =>
          simp only
          rcases List.mem_cons.1 hmem with e' | hmem'
          · subst e'
            rw [hd] at he
            cases he
          · exact ih f₁ ⟨r, hmem', hr, e, he⟩

/-- An error of the loop is the codec's error for a prefixed resource, or the
error with which the store refused the file of a prefixed resource whose
content had decoded. -/
theorem addResources_error_origin (env : Env) (rs : List BundleResource) (f : Store)
    (e : Error) (h : addResources env rs f = .error e) :
    (∃ r ∈ rs, HasPrefix r.Name "kustomize/" = true ∧
      env.Decode r.Content r.Encoding = .error e) ∨
    (∃ r ∈ rs, HasPrefix r.Name "kustomize/" = true ∧
      (∃ data, env.Decode r.Content r.Encoding = .ok data) ∧
      ∃ f₀, env.createCheck f₀ (TrimPrefix r.Name "kustomize/") = some e) := by
  induction rs generalizing f with
  | nil =>
    rw [addResources] at h
    cases h
  | cons q rest ih =>
    have lift : ((∃ r ∈ rest, HasPrefix r.Name "kustomize/" = true ∧
          env.Decode r.Content r.Encoding = .error e) ∨
        (∃ r ∈ rest, HasPrefix r.Name "kustomize/" = true ∧
          (∃ data, env.Decode r.Content r.Encoding = .ok data) ∧
          ∃ f₀, env.createCheck f₀ (TrimPrefix r.Name "kustomize/") = some e)) →
        ((∃ r ∈ q :: rest, HasPrefix r.Name "kustomize/" = true ∧
          env.Decode r.Content r.Encoding = .error e) ∨
        (∃ r ∈ q :: rest, HasPrefix r.Name "kustomize/" = true ∧
          (∃ data, env.Decode r.Content r.Encoding = .ok data) ∧
          ∃ f₀, env.createCheck f₀ (TrimPrefix r.Name "kustomize/") = some e)) := by
      rintro (⟨r, hr, h1⟩ | ⟨r, hr, h1⟩)
      · exact Or.inl ⟨r, List.mem_cons_of_mem _ hr, h1⟩
      · exact Or.inr ⟨r, List.mem_cons_of_mem _ hr, h1⟩
    cases hq : HasPrefix q.Name "kustomize/" with
    | false =>
      rw [addResources_cons_skip env q rest f hq] at h
      exact lift (ih f h)
    | true =>
      rw [addResources] at h
      simp only [hq, Bool.not_true, Bool.false_eq_true, if_false] at h
      cases hd : env.Decode q.Content q.Encoding with
      | error e₁ =>
        rw [hd] at h
        injection h with h
        subst h
        exact Or.inl ⟨q, List.mem_cons_self _ _, hq, hd⟩
      | ok data =>
        rw [hd] at h
        simp only at h
        cases ha : AddFile env f (TrimPrefix q.Name "kustomize/") data with
        | error e₁ =>
          rw [ha] at h
          injection h with h
          subst h
          refine Or.inr ⟨q, List.mem_cons_self _ _, hq, ⟨data, hd⟩, f, ?_⟩
          unfold AddFile at ha
          cases hc : env.createCheck f (TrimPrefix q.Name "kustomize/") with
          | none =>
            rw [hc] at ha
            cases ha
          | some e₂ =>
            rw [hc] at ha
            injection ha with ha
            rw [ha]
        | ok f₁ =>
          rw [ha] at h
          exact lift (ih f₁ h)

theorem toFilesystem_eq_ok (env : Env) (m : Manifest) (dir : String) (c : Bytes) (fs : Store)
    (h : toFilesystem env m dir c = .ok fs) :
    ∃ f, addResources env m.Resources [] = .ok f ∧
      fs = assocSet f (storeKey (Join [dir, ManifestsYAML])) c := by
  unfold toFilesystem MakeEmptyDirInMemory at h
  cases ha : addResources env m.Resources [] with
  | error e =>
    rw [ha] at h
    cases h
  | ok f =>
    rw [ha] at h
    exact ⟨f, rfl, AddFile_eq_ok env f fs _ c h⟩

/-! ## The claims about `toFilesystem` and the early exits of `Process` -/

/-- C5 (namespace filtering). When `toFilesystem` succeeds, every path that
exists in the store denotes the store path of the prefix-stripped name of some
resource carrying the `kustomize/` prefix, or that of `<dir>/manifests.yaml`;
and the store is the very one built from the prefixed resources alone, so a
resource without the prefix contributes no file. -/
theorem toFilesystem_only_overlay_files (env : Env) (m : Manifest) (dir : String)
    (c : Bytes) (fs : Store)
    (h : toFilesystem env m dir c = .ok fs) :
    (∀ p, fs.Exists p = true →
      (∃ r ∈ m.Resources, HasPrefix r.Name "kustomize/" = true ∧
        storeKey p = storeKey (TrimPrefix r.Name "kustomize/")) ∨
      storeKey p = storeKey (Join [dir, ManifestsYAML])) ∧
    toFilesystem env ⟨m.Resources.filter fun r => HasPrefix r.Name "kustomize/"⟩ dir c
      = .ok fs := by
  constructor
  · intro p hp
    obtain ⟨f, hf, hfs⟩ := toFilesystem_eq_ok env m dir c fs h
    obtain ⟨b, hb⟩ := (Exists_eq_true_iff fs p).1 hp
    rw [ReadFile_eq_ok_iff, hfs] at hb
    rcases assocGet_assocSet_cases f _ _ c b hb with h1 | h1
    · exact Or.inr h1
    · rcases addResources_origin env m.Resources [] f _ b hf h1 with ⟨b₀, h0⟩ | h2
      · cases h0
      · exact Or.inl h2
  · rw [← h]
    unfold toFilesystem
    simp only [addResources_filter]

/-- Witness of C5 on the sample bundle, whose `chart/values.yaml` leaves no
trace in the store. -/
theorem toFilesystem_only_overlay_files_witness :
    toFilesystem sampleEnv sampleManifest "." "x"
      = .ok [("/kustomization.yaml", sampleYAML), ("/manifests.yaml", "x")] ∧
    Store.Exists [("/kustomization.yaml", sampleYAML), ("/manifests.yaml", "x")]
      "chart/values.yaml" = false ∧
    toFilesystem sampleEnv ⟨[⟨"kustomize/kustomization.yaml", sampleYAML, ""⟩]⟩ "." "x"
      = .ok [("/kustomization.yaml", sampleYAML), ("/manifests.yaml", "x")] :=
  ⟨rfl, by decide,
    (toFilesystem_only_overlay_files sampleEnv sampleManifest "." "x"
      [("/kustomization.yaml", sampleYAML), ("/manifests.yaml", "x")] rfl).2⟩

/-- C6 as stated fails: a single resource `kustomize/manifests.yaml` (so names are
pairwise distinct) decodes to `a`, `toFilesystem` succeeds, and the file at the
prefix-stripped name holds the generated blob `b`, written last. -/
theorem generated_blob_overwrites_fragment :
    sampleEnv.Decode "a" "" = .ok "a" ∧
    toFilesystem sampleEnv ⟨[⟨"kustomize/manifests.yaml", "a", ""⟩]⟩ "." "b"
      = .ok [("/manifests.yaml", "b")] ∧
    Store.ReadFile [("/manifests.yaml", "b")] (TrimPrefix "kustomize/manifests.yaml" "kustomize/")
      = .ok "b" ∧
    ("a" : Bytes) ≠ "b" :=
  ⟨rfl, rfl, rfl, by decide⟩

/-- Two distinct names that the store files under one path: the second write
replaces the first. -/
theorem distinct_names_one_path :
    ("kustomize/a.yaml" : String) ≠ "kustomize/./a.yaml" ∧
    toFilesystem sampleEnv
        ⟨[⟨"kustomize/a.yaml", "first", ""⟩, ⟨"kustomize/./a.yaml", "second", ""⟩]⟩ "." "b"
      = .ok [("/a.yaml", "second"), ("/manifests.yaml", "b")] :=
  ⟨by decide, rfl⟩

/-- C6, amended. For every collection of resources whose prefix-stripped names
denote pairwise distinct store paths, every directory and every generated blob:
when `toFilesystem` succeeds, each resource carrying the `kustomize/` prefix
whose store path is not that of `<dir>/manifests.yaml` decodes, and the store
holds its decoded content at the prefix-stripped name; `<dir>/manifests.yaml`
holds the generated blob. -/
theorem toFilesystem_materialises (env : Env) (m : Manifest) (dir : String)
    (c : Bytes) (fs : Store)
    (hd : (m.Resources.filter fun r => HasPrefix r.Name "kustomize/").Pairwise fun a b =>
      storeKey (TrimPrefix a.Name "kustomize/") ≠ storeKey (TrimPrefix b.Name "kustomize/"))
    (h : toFilesystem env m dir c = .ok fs) :
    (∀ r ∈ m.Resources, HasPrefix r.Name "kustomize/" = true →
      storeKey (TrimPrefix r.Name "kustomize/") ≠ storeKey (Join [dir, ManifestsYAML]) →
      ∃ data, env.Decode r.Content r.Encoding = .ok data ∧
        fs.ReadFile (TrimPrefix r.Name "kustomize/") = .ok data) ∧
    fs.ReadFile (Join [dir, ManifestsYAML]) = .ok c := by
  obtain ⟨f, hf, hfs⟩ := toFilesystem_eq_ok env m dir c fs h
  subst hfs
  refine ⟨?_, ReadFile_assocSet_same f _ c⟩
  intro r hmem hr hne
  obtain ⟨data, hdec, hget⟩ := addResources_holds env m.Resources [] f hf hd r hmem hr
  refine ⟨data, hdec, ?_⟩
  rw [ReadFile_eq_ok_iff, assocGet_assocSet_other f _ _ c hne]
  exact hget

/-- Witness of the amended C6 on the sample bundle. -/
theorem toFilesystem_materialises_witness :
    toFilesystem sampleEnv sampleManifest "." "x"
      = .ok [("/kustomization.yaml", sampleYAML), ("/manifests.yaml", "x")] ∧
    (∀ r ∈ sampleManifest.Resources, HasPrefix r.Name "kustomize/" = true →
      storeKey (TrimPrefix r.Name "kustomize/") ≠ storeKey (Join [".", ManifestsYAML]) →
      ∃ data, sampleEnv.Decode r.Content r.Encoding = .ok data ∧
        Store.ReadFile [("/kustomization.yaml", sampleYAML), ("/manifests.yaml", "x")]
          (TrimPrefix r.Name "kustomize/") = .ok data) ∧
    Store.ReadFile [("/kustomization.yaml", sampleYAML), ("/manifests.yaml", "x")]
      (Join [".", ManifestsYAML]) = .ok "x" :=
  ⟨rfl,
    toFilesystem_materialises sampleEnv sampleManifest "." "x"
      [("/kustomization.yaml", sampleYAML), ("/manifests.yaml", "x")] (by decide) rfl⟩

/-- C4 as stated fails: a bundle with no fragment at `kustomization.yaml` whose
only overlay fragment is tagged `base64` and holds `!!!`, which is not base64,
makes `Process` return the codec's error. -/
theorem Process_errors_without_declaration :
    (∀ r ∈ [(⟨"kustomize/other.yaml", "!!!", "base64"⟩ : BundleResource)],
      HasPrefix r.Name "kustomize/" = true →
      storeKey (TrimPrefix r.Name "kustomize/") ≠ storeKey (Join [entryDir "", KustomizeYAML])) ∧
    sampleEnv.Decode "!!!" "base64" = .error "illegal base64 data" ∧
    Process sampleEnv ⟨[⟨"kustomize/other.yaml", "!!!", "base64"⟩]⟩ "y" ""
      = ⟨[], false, some "illegal base64 data", []⟩ :=
  ⟨by decide, rfl, rfl⟩

/-- C4, amended. For every bundle whose store is built without error (every
prefixed fragment decodes and the store accepts every file) and in which no
prefixed fragment is filed at `<dir>/kustomization.yaml`, for every generated
content and entry directory: `Process` returns no objects, `usedOverlay = false`
and no error, without invoking the engine. -/
theorem Process_without_declaration (env : Env) (m : Manifest) (content : Bytes)
    (dir : String) (fs : Store)
    (hfs : toFilesystem env m (entryDir dir) content = .ok fs)
    (hno : ∀ r ∈ m.Resources, HasPrefix r.Name "kustomize/" = true →
      storeKey (TrimPrefix r.Name "kustomize/")
        ≠ storeKey (Join [entryDir dir, KustomizeYAML])) :
    Process env m content dir = ⟨[], false, none, []⟩ := by
  apply Process_not_applicable env m content dir fs hfs
  obtain ⟨f, hf, hfs'⟩ := toFilesystem_eq_ok env m _ content fs hfs
  have hget : assocGet fs (storeKey (Join [entryDir dir, KustomizeYAML])) = none := by
    rw [hfs', assocGet_assocSet_other f _ _ content
      (Ne.symm (storeKey_manifests_ne_kustomization (entryDir dir))),
      addResources_frame env m.Resources [] f _ hf hno]
    rfl
  unfold Store.Exists
  rw [hget]
  rfl

/-- Witness of the amended C4: a bundle with one overlay file that is not the
declaration. -/
theorem Process_without_declaration_witness :
    toFilesystem sampleEnv ⟨[⟨"chart/values.yaml", "a: b\n", ""⟩,
        ⟨"kustomize/other.yaml", "x", ""⟩]⟩ (entryDir "") "y"
      = .ok [("/other.yaml", "x"), ("/manifests.yaml", "y")] ∧
    Process sampleEnv ⟨[⟨"chart/values.yaml", "a: b\n", ""⟩,
        ⟨"kustomize/other.yaml", "x", ""⟩]⟩ "y" ""
      = ⟨[], false, none, []⟩ :=
  ⟨rfl,
    Process_without_declaration sampleEnv
      ⟨[⟨"chart/values.yaml", "a: b\n", ""⟩, ⟨"kustomize/other.yaml", "x", ""⟩]⟩ "y" ""
      [("/other.yaml", "x"), ("/manifests.yaml", "y")] rfl (by decide)⟩

/-- C8 as stated fails: the second fragment is tagged `base64` and holds `!!!`,
which the codec cannot decode, but the store has already refused the file of
the first (its stripped name is empty), so the error `Process` returns is the
store's and not the codec's. -/
theorem Process_store_error_precedes_decode_error :
    sampleEnv.Decode "x" "" = .ok "x" ∧
    sampleEnv.Decode "!!!" "base64" = .error "illegal base64 data" ∧
    Process sampleEnv
        ⟨[⟨"kustomize/", "x", ""⟩, ⟨"kustomize/a.yaml", "!!!", "base64"⟩]⟩ "z" ""
      = ⟨[], false, some "illegal name in file creation", []⟩ ∧
    ("illegal name in file creation" : Error) ≠ "illegal base64 data" :=
  ⟨rfl, rfl, rfl, by decide⟩

/-- C8, amended. For every bundle in which some fragment carrying the
`kustomize/` prefix has content the codec cannot decode: `Process` returns an
error, no objects and `usedOverlay = false`, and the engine is not invoked. The
error is the codec's error for a prefixed fragment, or else the error with
which the store refused the file of a prefixed fragment that had decoded. -/
theorem Process_decode_failure (env : Env) (m : Manifest) (content : Bytes) (dir : String)
    (h : ∃ r ∈ m.Resources, HasPrefix r.Name "kustomize/" = true ∧
      ∃ e, env.Decode r.Content r.Encoding = .error e) :
    ∃ e', Process env m content dir = ⟨[], false, some e', []⟩ ∧
      ((∃ r ∈ m.Resources, HasPrefix r.Name "kustomize/" = true ∧
          env.Decode r.Content r.Encoding = .error e') ∨
       (∃ r ∈ m.Resources, HasPrefix r.Name "kustomize/" = true ∧
          (∃ data, env.Decode r.Content r.Encoding = .ok data) ∧
          ∃ f₀, env.createCheck f₀ (TrimPrefix r.Name "kustomize/") = some e')) := by
  obtain ⟨e', he'⟩ := addResources_fails env m.Resources [] h
  have hfs : toFilesystem env m (entryDir dir) content = .error e' := by
    unfold toFilesystem MakeEmptyDirInMemory
    rw [he']
  exact ⟨e', Process_error_of_toFilesystem env m content dir e' hfs,
    addResources_error_origin env m.Resources [] e' he'⟩

/-- Witness of the amended C8: one overlay fragment tagged `base64` whose
content is not base64. -/
theorem Process_decode_failure_witness :
    (∃ r ∈ [(⟨"kustomize/a.yaml", "!!!", "base64"⟩ : BundleResource)],
      HasPrefix r.Name "kustomize/" = true ∧
      ∃ e, sampleEnv.Decode r.Content r.Encoding = .error e) ∧
    ∃ e', Process sampleEnv ⟨[⟨"kustomize/a.yaml", "!!!", "base64"⟩]⟩ "z" ""
        = ⟨[], false, some e', []⟩ ∧
      ((∃ r ∈ [(⟨"kustomize/a.yaml", "!!!", "base64"⟩ : BundleResource)],
          HasPrefix r.Name "kustomize/" = true ∧
          sampleEnv.Decode r.Content r.Encoding = .error e') ∨
       (∃ r ∈ [(⟨"kustomize/a.yaml", "!!!", "base64"⟩ : BundleResource)],
          HasPrefix r.Name "kustomize/" = true ∧
          (∃ data, sampleEnv.Decode r.Content r.Encoding = .ok data) ∧
          ∃ f₀, sampleEnv.createCheck f₀ (TrimPrefix r.Name "kustomize/") = some e')) :=
  ⟨⟨_, List.mem_singleton.2 rfl, rfl, _, rfl⟩,
    Process_decode_failure sampleEnv ⟨[⟨"kustomize/a.yaml", "!!!", "base64"⟩]⟩ "z" ""
      ⟨_, List.mem_singleton.2 rfl, rfl, _, rfl⟩⟩

end Kustomize
